import Mathlib

/-!
Verification of the crate against its specification: a shallow embedding of the HyperLogLog estimation logic and of the packed
estimator arrays of the crate `card-est-array-rs`, together with theorems
settling the specification claims.

The array and view code (`src/impls/slice_estimator_array.rs`,
`src/impls/default_estimator.rs`, `src/traits/estimator.rs`) is embedded
directly from the source.  The concrete HyperLogLog logic module
(`hyper_log_log`) is declared by `src/impls/mod.rs` but its source file is
absent from the repository snapshot, so its operations are modelled from the
specification (each such definition says so in its doc comment).

Machine words are modelled as `Nat`; buffers and backends as `List Nat`;
`f64` results as exact real numbers; Rust panics (failed slice indexing,
`debug_assert!`, division by zero, `todo!()`) as `Option.none`.
-/

namespace CardEst

/-! ## The HyperLogLog estimation logic, modelled from the spec

The spec (§3, §4.1) describes an immutable logic holding `log2m` (so
`m = 2^log2m` registers), a register width `r`, and a hasher producing
64-bit hashes.  We model the backend at register granularity: a backend is
the list of its `m` register values.  (The packed word layout is modelled
separately below for the array claims.)
-/

/-- Modelled from the spec (§3 Data model): the immutable HyperLogLog
logic for items of type `α`: register-count exponent `log2m`, register
width `r` in bits, and a 64-bit hasher. -/
structure HllLogic (α : Type) where
  log2m : Nat
  r : Nat
  hash : α → Nat

variable {α : Type}

/-- The register count `m = 2^log2m`. -/
def HllLogic.m (L : HllLogic α) : Nat := 2 ^ L.log2m

/-- The rank domain `q = 64 − p` (spec §3). -/
def HllLogic.q (L : HllLogic α) : Nat := 64 - L.log2m

/-- Modelled from the spec (§4.1 failure modes): a logic is valid when the
builder accepts it: `log2m ∈ [4, 30]` and `r ≥ ceil(log2(64 − p + 1))`,
i.e. `q + 1 ≤ 2^r`. -/
def HllLogic.Valid (L : HllLogic α) : Prop :=
  4 ≤ L.log2m ∧ L.log2m ≤ 30 ∧ 64 - L.log2m + 1 ≤ 2 ^ L.r

instance (L : HllLogic α) : Decidable L.Valid := by
  unfold HllLogic.Valid; infer_instance

/-- The saturation value `2^r − 1` a register can store at most. -/
def HllLogic.sat (L : HllLogic α) : Nat := 2 ^ L.r - 1

/-- Modelled from the spec (§4.1 Add, step 2): the register index is taken
from the low `p` bits of the 64-bit hash, `j = h & (m − 1)`. -/
def HllLogic.regIndex (L : HllLogic α) (x : α) : Nat :=
  L.hash x % 2 ^ 64 % L.m

/-- Modelled from the spec (§4.1 Add, step 3): `w = h >> p`, a `q`-bit
value. -/
def HllLogic.rankBits (L : HllLogic α) (x : α) : Nat :=
  L.hash x % 2 ^ 64 / 2 ^ L.log2m

/-- Modelled from the spec (§4.1 Add, step 4, and glossary): the rank
`ρ = 1 + leading_zeros(w)` counted within the `q`-bit rank domain; the
sentinel bit caps the value at `q + 1`, which here is the `w = 0` case.
For `w > 0` the number of leading zeros of `w` in a `q`-bit window is
`q − (Nat.log2 w + 1)`. -/
def HllLogic.rho (L : HllLogic α) (x : α) : Nat :=
  let w := L.rankBits x
  if w = 0 then L.q + 1 else L.q - Nat.log2 w

/-- Modelled from the spec (§4.1 Add, step 5): read the current register
`k_old` at index `j`; if `ρ > k_old`, write, the register storing
`min(ρ, 2^r − 1)`. -/
def HllLogic.add (L : HllLogic α) (b : List Nat) (x : α) : List Nat :=
  if b.getD (L.regIndex x) 0 < L.rho x then
    b.set (L.regIndex x) (min (L.rho x) L.sat)
  else b

/-- Folding `add` over a sequence of elements. -/
def HllLogic.addAll (L : HllLogic α) (b : List Nat) (xs : List α) : List Nat :=
  xs.foldl L.add b

/-- Modelled from the spec (§4.1 Clear): overwrite every entry with zero. -/
def HllLogic.clearB (L : HllLogic α) (b : List Nat) : List Nat :=
  b.map fun _ => 0

/-- The backend of a freshly created estimator: the all-zero state
(spec §3: "The empty state is all zero bits"). -/
def HllLogic.newBackend (L : HllLogic α) : List Nat :=
  List.replicate L.m 0

/-- A well-formed backend: `m` registers, each below `2^r`. -/
def HllLogic.ValidBackend (L : HllLogic α) (b : List Nat) : Prop :=
  b.length = L.m ∧ ∀ k ∈ b, k < 2 ^ L.r

instance (L : HllLogic α) (b : List Nat) : Decidable (L.ValidBackend b) := by
  unfold HllLogic.ValidBackend; infer_instance

/-- Resizing a scratch buffer to length `n`, padding with zeros. -/
def resize (l : List Nat) (n : Nat) : List Nat :=
  (l ++ List.replicate n 0).take n

/-- Modelled from the spec (§4.2, `MergeEstimationLogic::new_helper`): a
fresh scratch buffer sized at most `backend_words`. -/
def HllLogic.newHelper (L : HllLogic α) : List Nat :=
  List.replicate L.m 0

/-- Modelled from the spec (§4.1 Merge): `dst[j] = max(dst[j], src[j])`
for each register `j`.  The helper is a scratch buffer: its entries up to
the common backend length are overwritten with the register-wise maxima,
which are then copied into `dst`; its initial content is never read.
Returns the new `dst` and the helper's final state. -/
def HllLogic.mergeWithHelper (L : HllLogic α) (dst src helper : List Nat) :
    List Nat × List Nat :=
  let n := min dst.length src.length
  let scratch := List.zipWith max dst src ++ (resize helper L.m).drop n
  (scratch.take n ++ dst.drop n, scratch)

/-- From `src/traits/estimator.rs` lines 87-90: the default `merge` makes
a fresh helper and delegates to `merge_with_helper`. -/
def HllLogic.merge (L : HllLogic α) (dst src : List Nat) : List Nat :=
  (L.mergeWithHelper dst src L.newHelper).1

/-! ### The estimate function

Modelled from the spec (§4.1 Estimate).  The `f64` computation is embedded
as exact arithmetic: the raw harmonic-mean estimate is a rational number,
and the small-range correction branch uses the real logarithm. -/

/-- Modelled from the spec (§3): the bias constant `αₘ`: 0.673 for m = 16,
0.697 for m = 32, 0.709 for m = 64, else `0.7213 / (1 + 1.079/m)`. -/
def alphaC (m : Nat) : ℚ :=
  if m = 16 then 0.673
  else if m = 32 then 0.697
  else if m = 64 then 0.709
  else 0.7213 / (1 + 1.079 / (m : ℚ))

/-- The harmonic denominator `Σ_j 2^(−k_j)` of the raw estimate. -/
def regSum (b : List Nat) : ℚ :=
  (b.map fun k => ((2 : ℚ) ^ k)⁻¹).sum

/-- The number `V` of zero registers. -/
def zeroCount (b : List Nat) : Nat :=
  (b.filter fun k => k == 0).length

/-- Modelled from the spec (§4.1 Estimate): the raw estimate
`E_raw = αₘ · m² / Σ 2^(−k_j)`. -/
def HllLogic.rawEstimate (L : HllLogic α) (b : List Nat) : ℚ :=
  alphaC L.m * (L.m : ℚ) ^ 2 / regSum b

/-- Modelled from the spec (§4.1 Estimate): if `E_raw ≤ 2.5·m` and
`V > 0`, return the small-range correction `m · ln(m/V)`; otherwise
return `E_raw`.  No large-range correction. -/
noncomputable def HllLogic.estimate (L : HllLogic α) (b : List Nat) : ℝ :=
  if L.rawEstimate b ≤ 2.5 * (L.m : ℚ) ∧ 0 < zeroCount b then
    (L.m : ℝ) * Real.log ((L.m : ℝ) / (zeroCount b : ℝ))
  else (L.rawEstimate b : ℝ)

/-! ### The packed word layout (register read)

The array code stores `n · backend_len` machine words; the spec (§4.1
Register access) dictates how an `r`-bit register is read from the word
slice.  Only the read direction is needed by the claims. -/

/-- Modelled from the spec (§4.1 Register access): read register `j` of
width `rBits` from a slice of words of `wBits` bits each:
`bit_offset = j·r`, `word_index = bit_offset / W_bits`,
`shift = bit_offset mod W_bits`, with the straddling second word taken
only when `shift + r > W_bits`, masked to `r` bits. -/
def readRegister (wBits rBits : Nat) (words : List Nat) (j : Nat) : Nat :=
  let bitOffset := j * rBits
  let wordIndex := bitOffset / wBits
  let shift := bitOffset % wBits
  let lo := words.getD wordIndex 0 >>> shift
  let hi :=
    if wBits < shift + rBits then words.getD (wordIndex + 1) 0 <<< (wBits - shift)
    else 0
  (lo ||| hi) &&& (2 ^ rBits - 1)

/-! ### The packed estimator array

From `src/impls/slice_estimator_array.rs`.  The array code consults the
logic only through `SliceEstimationLogic::backend_len`, so the embedded
structures carry that number directly.  The word buffer is a `List Nat`;
panicking slice indexing, `debug_assert!` failures and division by zero
are modelled as `Option.none`. -/

/-- Structure `SliceEstimatorArray` (lines 18-22): a logic plus a flat word
buffer. -/
structure SliceEstimatorArray where
  backendLen : Nat
  backend : List Nat

/-- Structure `SyncSliceEstimatorArray` (lines 25-29): the sync view over the same
kind of buffer. -/
structure SyncSliceEstimatorArray where
  backendLen : Nat
  backend : List Nat

/-- The word range of slot `i`: the sub-slice
`[i·backend_len, (i+1)·backend_len)` of a buffer. -/
def slot (bl : Nat) (buf : List Nat) (i : Nat) : List Nat :=
  (buf.drop (i * bl)).take bl

/-- Constructor `SliceEstimatorArray::new` (lines 125-133): a buffer of
`len * backend_len` words, all zero. -/
def SliceEstimatorArray.new (backendLen len : Nat) : SliceEstimatorArray :=
  ⟨backendLen, List.replicate (len * backendLen) 0⟩

/-- Method `SliceEstimatorArray::len` (lines 77-81): `debug_assert!` that the
buffer length is a multiple of `backend_len` (whose `%` panics when
`backend_len` is zero), then integer division (which panics when
`backend_len` is zero). -/
def SliceEstimatorArray.len (A : SliceEstimatorArray) : Option Nat :=
  if A.backendLen = 0 then none
  else if A.backend.length % A.backendLen ≠ 0 then none
  else some (A.backend.length / A.backendLen)

/-- Method `EstimatorArray::get_backend` (lines 145-148):
`&buf[offset..][..backend_len]`; slice indexing panics unless
`offset + backend_len ≤ buf.len()`. -/
def SliceEstimatorArray.getBackend (A : SliceEstimatorArray) (i : Nat) :
    Option (List Nat) :=
  if i * A.backendLen + A.backendLen ≤ A.backend.length then
    some ((A.backend.drop (i * A.backendLen)).take A.backendLen)
  else none

/-- Method `EstimatorArrayMut::get_backend_mut` (lines 175-178): identical
addressing, returning the same sub-slice (to be mutated in place). -/
def SliceEstimatorArray.getBackendMut (A : SliceEstimatorArray) (i : Nat) :
    Option (List Nat) :=
  if i * A.backendLen + A.backendLen ≤ A.backend.length then
    some ((A.backend.drop (i * A.backendLen)).take A.backendLen)
  else none

/-- A mutation performed through `get_backend_mut(i)` /
`get_estimator_mut(i)` (lines 180-189): the estimator's `add`, `clear`,
`set` and `merge` all act through the `&mut [W]` sub-slice of slot `i`,
which cannot change length; the effect on the array is replacing that
sub-slice with a same-length list `newContent`. -/
def SliceEstimatorArray.setSlot (A : SliceEstimatorArray) (i : Nat)
    (newContent : List Nat) : Option SliceEstimatorArray :=
  if newContent.length = A.backendLen ∧
      i * A.backendLen + A.backendLen ≤ A.backend.length then
    some ⟨A.backendLen,
      A.backend.take (i * A.backendLen) ++ newContent ++
        A.backend.drop (i * A.backendLen + A.backendLen)⟩
  else none

/-- Method `EstimatorArrayMut::clear` (lines 192-194): overwrite every buffer
word with zero. -/
def SliceEstimatorArray.clear (A : SliceEstimatorArray) : SliceEstimatorArray :=
  ⟨A.backendLen, A.backend.map fun _ => 0⟩

/-- Method `AsSyncArray::as_sync_array` (lines 98-104): clone the logic and view
the same buffer as sync cells. -/
def SliceEstimatorArray.asSyncArray (A : SliceEstimatorArray) :
    SyncSliceEstimatorArray :=
  ⟨A.backendLen, A.backend⟩

/-- Method `SyncEstimatorArray::len` (lines 69-71): buffer length divided by
`backend_len`, with no guard — division by zero panics. -/
def SyncSliceEstimatorArray.len (S : SyncSliceEstimatorArray) : Option Nat :=
  if S.backendLen = 0 then none
  else some (S.backend.length / S.backendLen)

/-- Method `SyncEstimatorArray::set` (lines 42-48): `debug_assert!` the content
length equals `backend_len`; slice `backend[offset..]` (panics unless
`offset ≤ len`); then write `content[k]` into word `offset + k` for
`k < min(content.len, len − offset)` via the per-word cells. -/
def SyncSliceEstimatorArray.set (S : SyncSliceEstimatorArray) (i : Nat)
    (content : List Nat) : Option SyncSliceEstimatorArray :=
  if content.length = S.backendLen ∧ i * S.backendLen ≤ S.backend.length then
    some ⟨S.backendLen,
      S.backend.take (i * S.backendLen) ++
        content.take (min content.length (S.backend.length - i * S.backendLen)) ++
        S.backend.drop (i * S.backendLen +
          min content.length (S.backend.length - i * S.backendLen))⟩
  else none

/-- Method `SyncEstimatorArray::get` (lines 54-63): `debug_assert!` the
destination length equals `backend_len`; slice `backend[offset..]`
(panics unless `offset ≤ len`); then overwrite `dst[k]` with word
`offset + k` for `k < min(dst.len, len − offset)`, leaving the rest of
`dst` unchanged. -/
def SyncSliceEstimatorArray.get (S : SyncSliceEstimatorArray) (i : Nat)
    (dst : List Nat) : Option (List Nat) :=
  if dst.length = S.backendLen ∧ i * S.backendLen ≤ S.backend.length then
    some ((S.backend.drop (i * S.backendLen)).take dst.length ++
      dst.drop ((S.backend.drop (i * S.backendLen)).take dst.length).length)
  else none

/-- Method `SyncEstimatorArray::clear` (lines 65-67): set every cell to zero. -/
def SyncSliceEstimatorArray.clear (S : SyncSliceEstimatorArray) :
    SyncSliceEstimatorArray :=
  ⟨S.backendLen, S.backend.map fun _ => 0⟩

/-! ### The default estimator view

From `src/impls/default_estimator.rs`.  The view pairs a logic with a
backend; only `into_owned` needs a standalone model, because its body is
`todo!()`. -/

/-- Structure `DefaultEstimator` (lines 12-16), specialized to its backend
content. -/
structure DefaultEstimator (B : Type) where
  backend : B

/-- Method `Estimator::into_owned` of `DefaultEstimator` (lines 62-65): the
body is `todo!()`, which panics for every input; modelled as `none`. -/
def DefaultEstimator.intoOwned {B : Type} (_e : DefaultEstimator B) :
    Option (DefaultEstimator B) :=
  none

/-! ### Concrete instances used by the witnesses -/

/-- A concrete valid logic: `log2m = 6`, `r = 6` (the spec's §8 scenario
parameters), identity hasher on `Nat`. -/
def L0 : HllLogic Nat := ⟨6, 6, fun x => x⟩

/-- A concrete backend of length `64 = L0.m`. -/
def A0 : List Nat := List.map (fun k => k % 5) (List.range 64)

/-- A second concrete backend of length `64`. -/
def B0 : List Nat := List.map (fun k => k % 7) (List.range 64)

/-- A third concrete backend of length `64`. -/
def C0 : List Nat := List.replicate 64 3

/-- The all-zero backend of length `64`. -/
def Z0 : List Nat := List.replicate 64 0

/-- A concrete array: `backend_len = 2`, three estimators. -/
def DA : SliceEstimatorArray := ⟨2, [1, 2, 3, 4, 5, 6]⟩

/-- The sync view of `DA`. -/
def DS : SyncSliceEstimatorArray := ⟨2, [1, 2, 3, 4, 5, 6]⟩

/-! ### Basic lemmas on the merge operation -/

theorem mergeWithHelper_fst (L : HllLogic α) (dst src helper : List Nat) :
    (L.mergeWithHelper dst src helper).1 =
      List.zipWith max dst src ++ dst.drop (min dst.length src.length) := by
  unfold HllLogic.mergeWithHelper
  have hlen : (List.zipWith max dst src).length = min dst.length src.length :=
    List.length_zipWith ..
  simp only [List.take_append_eq_append_take, hlen]
  rw [← hlen, List.take_length]
  simp [hlen]

theorem merge_eq_zipWith (L : HllLogic α) (dst src : List Nat)
    (h : dst.length = src.length) :
    L.merge dst src = List.zipWith max dst src := by
  rw [HllLogic.merge, mergeWithHelper_fst, h, Nat.min_self, ← h,
    List.drop_length, List.append_nil]

theorem zipWith_max_comm : ∀ (a b : List Nat),
    List.zipWith max a b = List.zipWith max b a := by
  intro a
  induction a with
  | nil => intro b; cases b <;> simp
  | cons x xs ih => intro b; cases b <;> simp [Nat.max_comm, ih]

theorem zipWith_max_assoc : ∀ (a b c : List Nat),
    List.zipWith max (List.zipWith max a b) c
      = List.zipWith max a (List.zipWith max b c) := by
  intro a
  induction a with
  | nil => intro b c; simp
  | cons x xs ih =>
    intro b c
    cases b with
    | nil => simp
    | cons y ys =>
      cases c with
      | nil => simp
      | cons z zs => simp [ih, Nat.max_assoc]

theorem zipWith_max_self : ∀ (a : List Nat), List.zipWith max a a = a := by
  intro a
  induction a with
  | nil => rfl
  | cons x xs ih => simp [ih]

theorem zipWith_max_getD : ∀ (a b : List Nat) (j : Nat),
    j < a.length → j < b.length →
    (List.zipWith max a b).getD j 0 = max (a.getD j 0) (b.getD j 0) := by
  intro a
  induction a with
  | nil => intro b j h _; simp at h
  | cons x xs ih =>
    intro b j ha hb
    cases b with
    | nil => simp at hb
    | cons y ys =>
      cases j with
      | zero => simp
      | succ j =>
        simp only [List.zipWith_cons_cons, List.getD_cons_succ]
        exact ih ys j (by simpa using ha) (by simpa using hb)

/-! ### List access lemmas -/

theorem getD_set_self : ∀ (b : List Nat) (j v : Nat), j < b.length →
    (b.set j v).getD j 0 = v := by
  intro b
  induction b with
  | nil => intro j v h; simp at h
  | cons x xs ih =>
    intro j v h
    cases j with
    | zero => simp
    | succ j => simpa using ih j v (by simpa using h)

theorem getD_set_ne : ∀ (b : List Nat) (i j v : Nat), i ≠ j →
    (b.set i v).getD j 0 = b.getD j 0 := by
  intro b
  induction b with
  | nil => intro i j v _; simp
  | cons x xs ih =>
    intro i j v hij
    cases i with
    | zero =>
      cases j with
      | zero => exact absurd rfl hij
      | succ j => simp
    | succ i =>
      cases j with
      | zero => simp
      | succ j => simpa using ih i j v (fun h => hij (by rw [h]))

theorem set_getD_self : ∀ (b : List Nat) (j : Nat),
    b.set j (b.getD j 0) = b := by
  intro b
  induction b with
  | nil => intro j; rfl
  | cons x xs ih =>
    intro j
    cases j with
    | zero => simp
    | succ j => simpa using ih j

theorem getD_eq_zero_of_le : ∀ (b : List Nat) (j : Nat), b.length ≤ j →
    b.getD j 0 = 0 := by
  intro b
  induction b with
  | nil => intro j _; rfl
  | cons x xs ih =>
    intro j h
    cases j with
    | zero => simp at h
    | succ j => simpa using ih j (by simpa using h)

theorem getD_mem : ∀ (b : List Nat) (j : Nat), j < b.length →
    b.getD j 0 ∈ b := by
  intro b
  induction b with
  | nil => intro j h; simp at h
  | cons x xs ih =>
    intro j h
    cases j with
    | zero => simp
    | succ j => exact List.mem_cons_of_mem x (by simpa using ih j (by simpa using h))

/-! ### Properties of `add` -/

theorem m_pos (L : HllLogic α) : 0 < L.m := Nat.pos_pow_of_pos _ (by decide)

theorem regIndex_lt (L : HllLogic α) (x : α) : L.regIndex x < L.m :=
  Nat.mod_lt _ (m_pos L)

theorem add_length (L : HllLogic α) (b : List Nat) (x : α) :
    (L.add b x).length = b.length := by
  unfold HllLogic.add
  split <;> simp

theorem sat_lt (L : HllLogic α) : L.sat < 2 ^ L.r :=
  Nat.sub_lt (Nat.pos_pow_of_pos _ (by decide)) (by decide)

theorem add_validBackend (L : HllLogic α) (b : List Nat) (x : α)
    (hb : L.ValidBackend b) : L.ValidBackend (L.add b x) := by
  obtain ⟨hlen, hreg⟩ := hb
  constructor
  · rw [add_length]; exact hlen
  · intro k hk
    unfold HllLogic.add at hk
    split at hk
    · rcases List.mem_or_eq_of_mem_set hk with h | h
      · exact hreg k h
      · subst h
        exact lt_of_le_of_lt (min_le_right _ _) (sat_lt L)
    · exact hreg k hk

theorem add_getD_mono (L : HllLogic α) (b : List Nat) (x : α)
    (hb : L.ValidBackend b) (j : Nat) :
    b.getD j 0 ≤ (L.add b x).getD j 0 := by
  obtain ⟨hlen, hreg⟩ := hb
  unfold HllLogic.add
  split
  case isTrue hlt =>
    by_cases hj : j = L.regIndex x
    · have hjlt : L.regIndex x < b.length := by rw [hlen]; exact regIndex_lt L x
      rw [hj, getD_set_self b _ _ hjlt]
      exact le_min (le_of_lt hlt)
        (Nat.le_sub_one_of_lt (hreg _ (getD_mem b _ hjlt)))
    · rw [getD_set_ne b _ j _ (fun h => hj h.symm)]
  case isFalse => exact le_refl _

theorem addAll_validBackend (L : HllLogic α) :
    ∀ (xs : List α) (b : List Nat), L.ValidBackend b →
      L.ValidBackend (L.addAll b xs) := by
  intro xs
  induction xs with
  | nil => intro b hb; exact hb
  | cons x xs ih =>
    intro b hb
    exact ih (L.add b x) (add_validBackend L b x hb)

theorem addAll_getD_mono (L : HllLogic α) :
    ∀ (xs : List α) (b : List Nat), L.ValidBackend b → ∀ j,
      b.getD j 0 ≤ (L.addAll b xs).getD j 0 := by
  intro xs
  induction xs with
  | nil => intro b _ j; exact le_refl _
  | cons x xs ih =>
    intro b hb j
    exact le_trans (add_getD_mono L b x hb j)
      (ih (L.add b x) (add_validBackend L b x hb) j)

theorem add_getD_ge (L : HllLogic α) (b : List Nat) (x : α)
    (hb : L.ValidBackend b) :
    min (L.rho x) L.sat ≤ (L.add b x).getD (L.regIndex x) 0 := by
  unfold HllLogic.add
  split
  case isTrue hlt =>
    have hjlt : L.regIndex x < b.length := by
      rw [hb.1]; exact regIndex_lt L x
    rw [getD_set_self b _ _ hjlt]
  case isFalse hge =>
    exact le_trans (min_le_left _ _) (Nat.le_of_not_lt hge)

theorem add_noop (L : HllLogic α) (b : List Nat) (x : α)
    (hb : L.ValidBackend b)
    (h : min (L.rho x) L.sat ≤ b.getD (L.regIndex x) 0) :
    L.add b x = b := by
  unfold HllLogic.add
  split
  case isTrue hlt =>
    have hsat : L.sat < L.rho x := by
      by_contra hc
      have : min (L.rho x) L.sat = L.rho x := min_eq_left (Nat.le_of_not_lt hc)
      omega
    have hmin : min (L.rho x) L.sat = L.sat := min_eq_right (le_of_lt hsat)
    have hub : b.getD (L.regIndex x) 0 ≤ L.sat := by
      by_cases hjlt : L.regIndex x < b.length
      · exact Nat.le_sub_one_of_lt (hb.2 _ (getD_mem b _ hjlt))
      · have := getD_eq_zero_of_le b (L.regIndex x) (Nat.le_of_not_lt hjlt)
        omega
    have heq : b.getD (L.regIndex x) 0 = L.sat := by omega
    rw [hmin, ← heq, set_getD_self]
  case isFalse => rfl

/-! ### Claim C1: merge semantics and algebra -/

/-- Claim C1. For every valid logic and every pair of same-shape backends
`dst` and `src`, `merge(dst, src)` sets each register `j ∈ [0, m)` of
`dst` to `max(dst[j], src[j])` (the source operand, passed by shared
reference, is not modified: the model returns only the new `dst`);
consequently `merge` on backends is commutative, associative and
idempotent, and repeating `merge(a, b)` any number of times leaves `a`'s
backend identical to the result after a single merge. -/
theorem hll_merge_props (L : HllLogic α) (hL : L.Valid)
    (a b c : List Nat) (ha : a.length = L.m) (hb : b.length = L.m)
    (hc : c.length = L.m) :
    (∀ j, j < L.m → (L.merge a b).getD j 0 = max (a.getD j 0) (b.getD j 0))
    ∧ (L.merge a b).length = L.m
    ∧ L.merge a b = L.merge b a
    ∧ L.merge (L.merge a b) c = L.merge a (L.merge b c)
    ∧ L.merge a a = a
    ∧ ∀ k, (fun d => L.merge d b)^[k + 1] a = L.merge a b := by
  have hab : a.length = b.length := ha.trans hb.symm
  have e1 : L.merge a b = List.zipWith max a b := merge_eq_zipWith L a b hab
  have lab : (L.merge a b).length = L.m := by
    rw [e1, List.length_zipWith, ha, hb, Nat.min_self]
  refine ⟨?_, lab, ?_, ?_, ?_, ?_⟩
  · intro j hj
    rw [e1]
    exact zipWith_max_getD a b j (by omega) (by omega)
  · rw [e1, merge_eq_zipWith L b a hab.symm, zipWith_max_comm]
  · have e2 : L.merge b c = List.zipWith max b c :=
      merge_eq_zipWith L b c (hb.trans hc.symm)
    have lbc : (List.zipWith max b c).length = L.m := by
      rw [List.length_zipWith, hb, hc, Nat.min_self]
    rw [e1, e2, merge_eq_zipWith L _ c (by rw [← e1, lab, hc]),
      merge_eq_zipWith L a _ (by rw [lbc, ha])]
    exact zipWith_max_assoc a b c
  · rw [merge_eq_zipWith L a a rfl, zipWith_max_self]
  · intro k
    induction k with
    | zero => rw [Function.iterate_one]
    | succ k ih =>
      rw [Function.iterate_succ_apply', ih]
      show L.merge (L.merge a b) b = L.merge a b
      rw [e1, merge_eq_zipWith L _ b (by rw [← e1, lab, hb]),
        zipWith_max_assoc, zipWith_max_self]

/-- Witness for C1 at a concrete valid logic and concrete backends. -/
theorem hll_merge_props_witness :
    L0.Valid ∧ A0.length = L0.m ∧ B0.length = L0.m ∧ C0.length = L0.m ∧
      (L0.merge A0 B0).getD 5 0 = max (A0.getD 5 0) (B0.getD 5 0) :=
  ⟨by decide, by decide, by decide, by decide,
    (hll_merge_props L0 (by decide) A0 B0 C0 (by decide) (by decide)
      (by decide)).1 5 (by decide)⟩

/-! ### Claim C2: add writes conditionally and registers are monotone -/

/-- Claim C2. For every valid logic, backend and element `x`, `add` writes
the rank `ρ` to the register selected by the low `p` hash bits only when
`ρ` exceeds that register's current value (storing `min(ρ, 2^r − 1)`) and
touches no other register; each register is monotone non-decreasing
across any sequence of `add` operations; and adding an element already
added never changes the backend. -/
theorem hll_add_props (L : HllLogic α) (hL : L.Valid) (b : List Nat)
    (hb : L.ValidBackend b) (x : α) :
    (∀ j, j ≠ L.regIndex x → (L.add b x).getD j 0 = b.getD j 0)
    ∧ (b.getD (L.regIndex x) 0 < L.rho x →
        (L.add b x).getD (L.regIndex x) 0 = min (L.rho x) L.sat)
    ∧ (L.rho x ≤ b.getD (L.regIndex x) 0 → L.add b x = b)
    ∧ (∀ xs j, b.getD j 0 ≤ (L.addAll b xs).getD j 0)
    ∧ (∀ xs, L.add (L.addAll (L.add b x) xs) x = L.addAll (L.add b x) xs) := by
  refine ⟨?_, ?_, ?_, ?_, ?_⟩
  · intro j hj
    unfold HllLogic.add
    split
    · exact getD_set_ne b _ j _ (fun h => hj h.symm)
    · rfl
  · intro hlt
    unfold HllLogic.add
    rw [if_pos hlt]
    exact getD_set_self b _ _ (by rw [hb.1]; exact regIndex_lt L x)
  · intro hge
    unfold HllLogic.add
    rw [if_neg (by omega)]
  · intro xs j
    exact addAll_getD_mono L xs b hb j
  · intro xs
    have hb1 : L.ValidBackend (L.add b x) := add_validBackend L b x hb
    have hb2 : L.ValidBackend (L.addAll (L.add b x) xs) :=
      addAll_validBackend L xs _ hb1
    refine add_noop L _ x hb2 ?_
    exact le_trans (add_getD_ge L b x hb)
      (addAll_getD_mono L xs (L.add b x) hb1 (L.regIndex x))

/-- Witness for C2: re-adding 42 after further additions is a no-op. -/
theorem hll_add_props_witness :
    L0.Valid ∧ L0.ValidBackend Z0 ∧
      L0.add (L0.addAll (L0.add Z0 42) [1, 2, 3]) 42
        = L0.addAll (L0.add Z0 42) [1, 2, 3] :=
  ⟨by decide, by decide,
    (hll_add_props L0 (by decide) Z0 (by decide) 42).2.2.2.2 [1, 2, 3]⟩

/-! ### Claim C9: the merge helper never influences the result -/

/-- Claim C9. For every merge-capable logic and all same-shape backends,
`merge(dst, src)` — which per `src/traits/estimator.rs` lines 87-90 calls
`merge_with_helper` on a helper freshly made by `new_helper()` — produces
exactly the same final `dst` as `merge_with_helper(dst, src, h)` for an
arbitrary helper `h`: the helper only affects allocation, never the
result. -/
theorem merge_helper_irrelevant (L : HllLogic α) (dst src : List Nat)
    (hd : dst.length = L.m) (hs : src.length = L.m) (helper : List Nat) :
    (L.mergeWithHelper dst src helper).1 = L.merge dst src := by
  rw [mergeWithHelper_fst, HllLogic.merge, mergeWithHelper_fst]

/-- Witness for C9 at a concrete logic, backends and a dirty helper. -/
theorem merge_helper_irrelevant_witness :
    A0.length = L0.m ∧ B0.length = L0.m ∧
      (L0.mergeWithHelper A0 B0 [7, 7, 7]).1 = L0.merge A0 B0 :=
  ⟨by decide, by decide,
    merge_helper_irrelevant L0 A0 B0 (by decide) (by decide) [7, 7, 7]⟩

/-! ### Lemmas for the estimate of an all-zero backend -/

theorem map_const_zero : ∀ (b : List Nat),
    (b.map fun _ => (0 : Nat)) = List.replicate b.length 0 := by
  intro b
  induction b with
  | nil => rfl
  | cons x xs ih => simp [List.replicate_succ, ih]

theorem zeroCount_replicate : ∀ n : Nat, zeroCount (List.replicate n 0) = n := by
  intro n
  induction n with
  | zero => rfl
  | succ n ih =>
    rw [List.replicate_succ]
    show (List.filter _ (0 :: List.replicate n 0)).length = n + 1
    rw [List.filter_cons_of_pos (by decide)]
    simpa using ih

theorem regSum_replicate (n : Nat) : regSum (List.replicate n 0) = n := by
  unfold regSum
  rw [List.map_replicate]
  simp [List.sum_replicate]

theorem alphaC_le (m : Nat) : alphaC m ≤ 5 / 2 := by
  unfold alphaC
  split_ifs
  · norm_num
  · norm_num
  · norm_num
  · have h2 : (1 : ℚ) ≤ 1 + 1.079 / (m : ℚ) := by
      have h1 : (0 : ℚ) ≤ 1.079 / (m : ℚ) := by positivity
      linarith
    exact le_trans (div_le_self (by norm_num) h2) (by norm_num)

theorem estimate_allzero (L : HllLogic α) :
    L.estimate (List.replicate L.m 0) = 0 := by
  have hm : 0 < L.m := m_pos L
  have hmQ : ((L.m : ℚ)) ≠ 0 := by exact_mod_cast hm.ne'
  have hraw : L.rawEstimate (List.replicate L.m 0) = alphaC L.m * (L.m : ℚ) := by
    unfold HllLogic.rawEstimate
    rw [regSum_replicate, sq, mul_div_assoc, mul_div_cancel_right₀ _ hmQ]
  have hcond : L.rawEstimate (List.replicate L.m 0) ≤ 2.5 * (L.m : ℚ) ∧
      0 < zeroCount (List.replicate L.m 0) := by
    constructor
    · rw [hraw]
      calc alphaC L.m * (L.m : ℚ) ≤ (5 / 2) * (L.m : ℚ) :=
            mul_le_mul_of_nonneg_right (alphaC_le L.m) (by positivity)
        _ = 2.5 * (L.m : ℚ) := by norm_num
    · rw [zeroCount_replicate]
      exact hm
  unfold HllLogic.estimate
  rw [if_pos hcond, zeroCount_replicate,
    div_self (by exact_mod_cast hm.ne' : ((L.m : ℝ)) ≠ 0),
    Real.log_one, mul_zero]

/-! ### Claim C3: clear then estimate gives exactly zero -/

/-- Claim C3. For every valid logic and backend, after `clear` the estimate
is exactly `0`; in particular a freshly built estimator's estimate is
exactly `0` (the small-range branch applies with `V = m` and
`m · ln(m/m) = 0`), with no numeric failure. -/
theorem hll_estimate_clear_zero (L : HllLogic α) (hL : L.Valid)
    (b : List Nat) (hb : b.length = L.m) :
    L.estimate (L.clearB b) = 0 ∧ L.estimate L.newBackend = 0 := by
  constructor
  · have h : L.clearB b = List.replicate L.m 0 := by
      unfold HllLogic.clearB
      rw [map_const_zero, hb]
    rw [h]
    exact estimate_allzero L
  · exact estimate_allzero L

/-- Witness for C3 at a concrete logic and backend. -/
theorem hll_estimate_clear_zero_witness :
    L0.Valid ∧ A0.length = L0.m ∧ L0.estimate (L0.clearB A0) = 0 :=
  ⟨by decide, by decide,
    (hll_estimate_clear_zero L0 (by decide) A0 (by decide)).1⟩

/-! ### List-surgery lemmas for the packed buffer -/

theorem drop_append_exact (pre mid : List Nat) (off : Nat)
    (hpre : pre.length = off) : (pre ++ mid).drop off = mid := by
  rw [List.drop_append_eq_append_drop, hpre, Nat.sub_self, List.drop_zero,
    ← hpre, List.drop_length, List.nil_append]

theorem take_append_exact (mid post : List Nat) (k : Nat)
    (hmid : mid.length = k) : (mid ++ post).take k = mid := by
  rw [List.take_append_eq_append_take, hmid, Nat.sub_self, List.take_zero,
    List.append_nil, ← hmid, List.take_length]

theorem drop_take_append_left (X Y : List Nat) (a k : Nat)
    (h : a + k ≤ X.length) :
    ((X ++ Y).drop a).take k = (X.drop a).take k := by
  rw [List.drop_append_eq_append_drop, Nat.sub_eq_zero_of_le (by omega),
    List.drop_zero, List.take_append_eq_append_take, List.length_drop,
    Nat.sub_eq_zero_of_le (by omega), List.take_zero, List.append_nil]

theorem drop_append_right (X Y : List Nat) (a : Nat) (h : X.length ≤ a) :
    (X ++ Y).drop a = Y.drop (a - X.length) := by
  rw [List.drop_append_eq_append_drop, List.drop_eq_nil_of_le h,
    List.nil_append]

theorem slot_write_frame (buf c : List Nat) (off a k : Nat)
    (hfit : off + c.length ≤ buf.length)
    (hcase : a + k ≤ off ∨ off + c.length ≤ a) :
    ((buf.take off ++ c ++ buf.drop (off + c.length)).drop a).take k
      = (buf.drop a).take k := by
  have hpre : (buf.take off).length = off := by
    rw [List.length_take]; omega
  rcases hcase with h | h
  · rw [List.append_assoc,
      drop_take_append_left (buf.take off) _ a k (by rw [hpre]; omega),
      List.drop_take, List.take_take, Nat.min_eq_left (by omega)]
  · rw [drop_append_right _ _ a (by rw [List.length_append, hpre]; omega),
      List.length_append, hpre, List.drop_drop]
    congr 2
    omega

/-! ### Claim C5: a fresh array is a zeroed buffer of n · backend_len words -/

theorem getD_replicate_zero : ∀ (N k : Nat),
    (List.replicate N (0 : Nat)).getD k 0 = 0 := by
  intro N
  induction N with
  | zero => intro k; rfl
  | succ N ih =>
    intro k
    cases k with
    | zero => simp
    | succ k => simpa [List.replicate_succ] using ih k

theorem slot_replicate_zero (bl N i : Nat) :
    slot bl (List.replicate N (0 : Nat)) i
      = List.replicate (min bl (N - i * bl)) 0 := by
  rw [slot, List.drop_replicate, List.take_replicate]

theorem readRegister_zeros (wBits rBits j : Nat) (words : List Nat)
    (h : ∀ idx, words.getD idx 0 = 0) :
    readRegister wBits rBits words j = 0 := by
  unfold readRegister
  simp only [h, Nat.zero_shiftRight, Nat.zero_shiftLeft, ite_self,
    Nat.zero_or, Nat.zero_and]

/-- Claim C5. For every logic and every `n`, `new(logic, n)` produces a
backing buffer of exactly `n · backend_len` words, every word zero, so
every register of every one of the `n` estimators reads zero under the
packed layout. -/
theorem slice_array_new_zeroed (bl n : Nat) :
    (SliceEstimatorArray.new bl n).backend = List.replicate (n * bl) 0
    ∧ (SliceEstimatorArray.new bl n).backend.length = n * bl
    ∧ (∀ w ∈ (SliceEstimatorArray.new bl n).backend, w = 0)
    ∧ ∀ wBits rBits i j,
        readRegister wBits rBits
          (slot bl (SliceEstimatorArray.new bl n).backend i) j = 0 := by
  refine ⟨rfl, by simp [SliceEstimatorArray.new], ?_, ?_⟩
  · intro w hw
    exact List.eq_of_mem_replicate hw
  · intro wBits rBits i j
    apply readRegister_zeros
    intro idx
    show (slot bl (List.replicate (n * bl) 0) i).getD idx 0 = 0
    rw [slot_replicate_zero]
    exact getD_replicate_zero _ _

/-- Witness for C5 at `backend_len = 3`, two estimators. -/
theorem slice_array_new_zeroed_witness :
    (SliceEstimatorArray.new 3 2).backend = List.replicate 6 0
    ∧ readRegister 64 6 (slot 3 (SliceEstimatorArray.new 3 2).backend 1) 4
        = 0 :=
  ⟨(slice_array_new_zeroed 3 2).1, (slice_array_new_zeroed 3 2).2.2.2 64 6 1 4⟩

/-! ### Claim C6: get_backend returns exactly slot i, or fails out of range -/

/-- Claim C6. For an array of `n` estimators and `i < n`, `get_backend(i)`
and `get_backend_mut(i)` return exactly the sub-slice
`[i·backend_words, (i+1)·backend_words)` of the backing buffer (a
borrowed slice — no allocation); for `i ≥ n` (with a positive backend
length) the indexing fails instead of returning a slice. -/
theorem get_backend_bounds (A : SliceEstimatorArray) (n i : Nat)
    (hinv : A.backend.length = n * A.backendLen) :
    (i < n → A.getBackend i = some (slot A.backendLen A.backend i)
      ∧ A.getBackendMut i = some (slot A.backendLen A.backend i))
    ∧ (0 < A.backendLen → n ≤ i →
        A.getBackend i = none ∧ A.getBackendMut i = none) := by
  constructor
  · intro hi
    have hle : i * A.backendLen + A.backendLen ≤ A.backend.length := by
      rw [hinv, ← Nat.succ_mul]
      exact Nat.mul_le_mul_right _ hi
    constructor
    · unfold SliceEstimatorArray.getBackend
      rw [if_pos hle]
      rfl
    · unfold SliceEstimatorArray.getBackendMut
      rw [if_pos hle]
      rfl
  · intro hbl hi
    have hgt : A.backend.length < i * A.backendLen + A.backendLen := by
      rw [hinv]
      calc n * A.backendLen < n * A.backendLen + A.backendLen :=
            Nat.lt_add_of_pos_right hbl
        _ = (n + 1) * A.backendLen := (Nat.succ_mul n _).symm
        _ ≤ (i + 1) * A.backendLen :=
            Nat.mul_le_mul_right _ (Nat.succ_le_succ hi)
        _ = i * A.backendLen + A.backendLen := Nat.succ_mul i _
    constructor
    · unfold SliceEstimatorArray.getBackend
      rw [if_neg (not_le.mpr hgt)]
    · unfold SliceEstimatorArray.getBackendMut
      rw [if_neg (not_le.mpr hgt)]

/-- Witness for C6: slot 1 of the concrete array is returned, index 5 fails. -/
theorem get_backend_bounds_witness :
    DA.backend.length = 3 * DA.backendLen
    ∧ DA.getBackend 1 = some [3, 4] ∧ DA.getBackend 5 = none :=
  ⟨by decide,
    ((get_backend_bounds DA 3 1 (by decide)).1 (by decide)).1,
    ((get_backend_bounds DA 3 5 (by decide)).2 (by decide) (by decide)).1⟩

/-! ### Claim C7: sync set followed by get round-trips -/

/-- Claim C7. For every sync array view, every index `i < len`, and every
source backend `src` of length `backend_len`, `set(i, src)` writes `src`
into slot `i`, and a subsequent `get(i, dst)` into a buffer `dst` of
length `backend_len` returns exactly `src`, word for word. -/
theorem sync_set_get_roundtrip (S : SyncSliceEstimatorArray) (n i : Nat)
    (hbl : 0 < S.backendLen) (hlen : S.backend.length = n * S.backendLen)
    (hi : i < n) (src dst : List Nat) (hsrc : src.length = S.backendLen)
    (hdst : dst.length = S.backendLen) :
    S.set i src = some ⟨S.backendLen,
        S.backend.take (i * S.backendLen) ++ src ++
          S.backend.drop (i * S.backendLen + S.backendLen)⟩
    ∧ (SyncSliceEstimatorArray.mk S.backendLen
        (S.backend.take (i * S.backendLen) ++ src ++
          S.backend.drop (i * S.backendLen + S.backendLen))).get i dst
      = some src := by
  have hfit : i * S.backendLen + S.backendLen ≤ S.backend.length := by
    rw [hlen, ← Nat.succ_mul]
    exact Nat.mul_le_mul_right _ hi
  have hoffle : i * S.backendLen ≤ S.backend.length :=
    le_trans (Nat.le_add_right _ _) hfit
  have hmin : min src.length (S.backend.length - i * S.backendLen)
      = S.backendLen := by
    rw [hsrc]
    exact Nat.min_eq_left
      (Nat.le_sub_of_add_le (by rw [Nat.add_comm]; exact hfit))
  have hpre : (S.backend.take (i * S.backendLen)).length
      = i * S.backendLen := by
    rw [List.length_take]
    exact Nat.min_eq_left hoffle
  constructor
  · unfold SyncSliceEstimatorArray.set
    rw [if_pos ⟨hsrc, hoffle⟩, hmin, ← hsrc, List.take_length]
  · unfold SyncSliceEstimatorArray.get
    have hnb : (S.backend.take (i * S.backendLen) ++ src ++
        S.backend.drop (i * S.backendLen + S.backendLen)).length
        = S.backend.length := by
      rw [List.length_append, List.length_append, hpre, hsrc,
        List.length_drop]
      exact Nat.add_sub_cancel' hfit
    rw [if_pos ⟨hdst, by rw [hnb]; exact hoffle⟩]
    have hdrop : (S.backend.take (i * S.backendLen) ++ src ++
        S.backend.drop (i * S.backendLen + S.backendLen)).drop
          (i * S.backendLen)
        = src ++ S.backend.drop (i * S.backendLen + S.backendLen) := by
      rw [List.append_assoc]
      exact drop_append_exact _ _ _ hpre
    rw [hdrop, hdst, take_append_exact _ _ _ hsrc, hsrc, ← hdst,
      List.drop_length, List.append_nil]

/-- Witness for C7 on the concrete sync view: write `[9, 8]` into slot 1
and read it back. -/
theorem sync_set_get_roundtrip_witness :
    0 < DS.backendLen ∧ DS.backend.length = 3 * DS.backendLen ∧
      DS.set 1 [9, 8] = some ⟨2, [1, 2, 9, 8, 5, 6]⟩ ∧
      (SyncSliceEstimatorArray.mk 2 [1, 2, 9, 8, 5, 6]).get 1 [0, 0]
        = some [9, 8] := by
  have h := sync_set_get_roundtrip DS 3 1 (by decide) (by decide) (by decide)
    [9, 8] [0, 0] (by decide) (by decide)
  exact ⟨by decide, by decide, h.1, h.2⟩

/-! ### Claim C8: mutations through slot i leave all other slots unchanged -/

/-- Claim C8. For an array of `n ≥ 2` estimators and `i < n`, any mutation
performed through the estimator at index `i` (`add`, `clear`, `set` or
`merge` act through the `&mut [W]` sub-slice obtained by
`get_backend_mut`, hence replace slot `i` with a same-length list) and
any sync-view `set(i, src)` with `src` of length `backend_len` modify
only the words `[i·backend_words, (i+1)·backend_words)`; every other
slot's backend is unchanged. -/
theorem slot_mutation_frame (A : SliceEstimatorArray) (n i : Nat)
    (hlen : A.backend.length = n * A.backendLen) (hi : i < n)
    (newC : List Nat) (hc : newC.length = A.backendLen) :
    A.setSlot i newC = some ⟨A.backendLen,
        A.backend.take (i * A.backendLen) ++ newC ++
          A.backend.drop (i * A.backendLen + A.backendLen)⟩
    ∧ (A.asSyncArray).set i newC = some ⟨A.backendLen,
        A.backend.take (i * A.backendLen) ++ newC ++
          A.backend.drop (i * A.backendLen + A.backendLen)⟩
    ∧ ∀ j, j < n → j ≠ i →
        slot A.backendLen
          (A.backend.take (i * A.backendLen) ++ newC ++
            A.backend.drop (i * A.backendLen + A.backendLen)) j
        = slot A.backendLen A.backend j := by
  have hfit : i * A.backendLen + A.backendLen ≤ A.backend.length := by
    rw [hlen, ← Nat.succ_mul]
    exact Nat.mul_le_mul_right _ hi
  have hoffle : i * A.backendLen ≤ A.backend.length :=
    le_trans (Nat.le_add_right _ _) hfit
  refine ⟨?_, ?_, ?_⟩
  · unfold SliceEstimatorArray.setSlot
    rw [if_pos ⟨hc, hfit⟩]
  · show (if newC.length = A.backendLen ∧
        i * A.backendLen ≤ A.backend.length then
        some (SyncSliceEstimatorArray.mk A.backendLen
          (A.backend.take (i * A.backendLen) ++
            newC.take (min newC.length
              (A.backend.length - i * A.backendLen)) ++
            A.backend.drop (i * A.backendLen +
              min newC.length (A.backend.length - i * A.backendLen))))
      else none) = _
    have hmin : min newC.length (A.backend.length - i * A.backendLen)
        = A.backendLen := by
      rw [hc]
      exact Nat.min_eq_left
        (Nat.le_sub_of_add_le (by rw [Nat.add_comm]; exact hfit))
    rw [if_pos ⟨hc, hoffle⟩, hmin, ← hc, List.take_length]
  · intro j hj hne
    have hcase : j * A.backendLen + A.backendLen ≤ i * A.backendLen
        ∨ i * A.backendLen + newC.length ≤ j * A.backendLen := by
      rcases lt_or_gt_of_ne hne with hlt | hgt
      · left
        rw [← Nat.succ_mul]
        exact Nat.mul_le_mul_right _ hlt
      · right
        rw [hc, ← Nat.succ_mul]
        exact Nat.mul_le_mul_right _ hgt
    have hfr := slot_write_frame A.backend newC (i * A.backendLen)
      (j * A.backendLen) A.backendLen (by rw [hc]; exact hfit) hcase
    rw [hc] at hfr
    exact hfr

/-- Witness for C8: clearing slot 0 of the concrete array leaves slot 1
identical. -/
theorem slot_mutation_frame_witness :
    DA.backend.length = 3 * DA.backendLen
    ∧ ([0, 0] : List Nat).length = DA.backendLen
    ∧ DA.setSlot 0 [0, 0] = some ⟨2, [0, 0, 3, 4, 5, 6]⟩
    ∧ slot 2 [0, 0, 3, 4, 5, 6] 1 = slot 2 DA.backend 1 := by
  have h := slot_mutation_frame DA 3 0 (by decide) (by decide) [0, 0]
    (by decide)
  exact ⟨by decide, by decide, h.1, h.2.2 1 (by decide) (by decide)⟩

/-! ### Claim C10: len is buffer length over backend_len, shared by the
sync view, and partial when backend_len is zero -/

/-- Claim C10. `SliceEstimatorArray::len` and
`SyncSliceEstimatorArray::len` both return the word-buffer length
divided by `backend_len`, so the view produced by `as_sync_array`
reports the same length as its source; with `backend_len = 0` there is
no guard and both panic on a division (or `%`) by zero, so `len` is
total only under the precondition `backend_len > 0`. -/
theorem len_div_backend_len (A : SliceEstimatorArray) :
    (A.backendLen = 0 → A.len = none ∧ A.asSyncArray.len = none)
    ∧ (0 < A.backendLen → A.backend.length % A.backendLen = 0 →
        A.len = some (A.backend.length / A.backendLen)
        ∧ A.asSyncArray.len = some (A.backend.length / A.backendLen)
        ∧ A.len = A.asSyncArray.len) := by
  constructor
  · intro h
    refine ⟨?_, ?_⟩
    · unfold SliceEstimatorArray.len
      rw [if_pos h]
    · show (if A.backendLen = 0 then none
          else some (A.backend.length / A.backendLen)) = none
      rw [if_pos h]
  · intro hbl hmod
    have hne : ¬A.backendLen = 0 := Nat.pos_iff_ne_zero.mp hbl
    have hm : ¬A.backend.length % A.backendLen ≠ 0 := by simpa using hmod
    have e1 : A.len = some (A.backend.length / A.backendLen) := by
      unfold SliceEstimatorArray.len
      rw [if_neg hne, if_neg hm]
    have e2 : A.asSyncArray.len
        = some (A.backend.length / A.backendLen) := by
      show (if A.backendLen = 0 then none
          else some (A.backend.length / A.backendLen)) = _
      rw [if_neg hne]
    exact ⟨e1, e2, e1.trans e2.symm⟩

/-- Witness for C10 on the concrete array: both lengths are 3. -/
theorem len_div_backend_len_witness :
    0 < DA.backendLen ∧ DA.backend.length % DA.backendLen = 0 ∧
      DA.len = some 3 ∧ DA.asSyncArray.len = some 3 := by
  have h := (len_div_backend_len DA).2 (by decide) (by decide)
  exact ⟨by decide, by decide, h.1, h.2.1⟩

/-! ### Claim C4: into_owned is unimplemented in the source -/

/-- Claim C4 (code bug). The claim — and the spec's invariant 7 — require
`into_owned(v)` to return an owned estimator backed by a fresh copy of
`v`'s backend, with an equal estimate and independent mutability.  The
body of `Estimator::into_owned` for `DefaultEstimator`
(`src/impls/default_estimator.rs` lines 62-65) is `todo!()`, which
panics for every input; evaluating the modelled call at a concrete
estimator yields no owned estimator at all. -/
theorem into_owned_unimplemented :
    DefaultEstimator.intoOwned (DefaultEstimator.mk Z0) = none := rfl

end CardEst
